import Mathlib

/-!
Verification of the AI tic-tac-toe repository.

The board logic (`checkWinner`, `checkGameEnd`, `handleCellClick`, the
best-of-3 round flow) is embedded from `src/frontend/js/game_with_auth.js`
(the file `src/unnamed/part_001` contains an identical copy of these
functions).  The SQL win-rate function and view are embedded from
`src/database/schemas_with_auth.sql`.  The AI move engine itself lives
behind the `/ai/move` HTTP endpoint and its source is not part of the
repository; it is modelled from the specification where needed, and each
such definition says so in its doc comment.
-/

set_option maxRecDepth 8000

namespace TicTacToe

/-- A player mark: `X` or `O` (the JS strings `'X'` / `'O'`). -/
inductive Mark where
  | X
  | O
deriving DecidableEq, Repr, Fintype

/-- A board cell: `none` is the JS `null`, `some m` a placed mark. -/
abbrev Cell := Option Mark

/-- The board: a JS array of 9 cells, indices 0–8. -/
abbrev Board := Fin 9 → Cell

/-- The opponent of a mark (the JS expression `player === 'X' ? 'O' : 'X'`). -/
def other : Mark → Mark
  | .X => .O
  | .O => .X

/-- The 8 win patterns of `checkWinner`
(`game_with_auth.js` lines 689–693): rows, columns, diagonals. -/
def winPatterns : List (Fin 9 × Fin 9 × Fin 9) :=
  [(0, 1, 2), (3, 4, 5), (6, 7, 8),
   (0, 3, 6), (1, 4, 7), (2, 5, 8),
   (0, 4, 8), (2, 4, 6)]

/-- Test of one pattern, as in the JS condition
`board[a] && board[a] === board[b] && board[a] === board[c]`:
the result carries the mark and the pattern as `checkWinner` returns them. -/
def patternWinner (b : Board) (p : Fin 9 × Fin 9 × Fin 9) :
    Option (Mark × (Fin 9 × Fin 9 × Fin 9)) :=
  match b p.1 with
  | none => none
  | some m => if b p.2.1 = some m ∧ b p.2.2 = some m then some (m, p) else none

/-- `checkWinner` (`game_with_auth.js` lines 688–705): scan the 8 patterns
in order and return the first complete one, with its mark, else `null`. -/
def checkWinner (b : Board) : Option (Mark × (Fin 9 × Fin 9 × Fin 9)) :=
  winPatterns.findSome? (patternWinner b)

/-- `board.every(cell => cell !== null)` (`game_with_auth.js` line 681). -/
def boardFull (b : Board) : Bool :=
  (List.finRange 9).all fun i => (b i).isSome

/-- Result of a finished round: a win for a mark, or a draw. -/
inductive RoundResult where
  | win (winner : Mark)
  | draw
deriving DecidableEq, Repr

/-- `checkGameEnd` (`game_with_auth.js` lines 672–686): a win if
`checkWinner` found one, else a draw if the board is full, else `null`.
(The DOM call `highlightWinningCells` has no game-state effect.) -/
def checkGameEnd (b : Board) : Option RoundResult :=
  match checkWinner b with
  | some w => some (.win w.1)
  | none => if boardFull b then some .draw else none

/-- The three marks of a pattern all equal `some m`. -/
def winTriple (b : Board) (p : Fin 9 × Fin 9 × Fin 9) (m : Mark) : Prop :=
  b p.1 = some m ∧ b p.2.1 = some m ∧ b p.2.2 = some m

instance (b : Board) (p : Fin 9 × Fin 9 × Fin 9) (m : Mark) :
    Decidable (winTriple b p m) := by
  unfold winTriple; infer_instance

/-- Soundness of one pattern test. -/
lemma patternWinner_eq_some {b : Board} {p q : Fin 9 × Fin 9 × Fin 9} {m : Mark}
    (h : patternWinner b p = some (m, q)) : q = p ∧ winTriple b p m := by
  unfold patternWinner at h
  cases hb : b p.1 with
  | none => simp [hb] at h
  | some m' =>
    rw [hb] at h
    by_cases hc : b p.2.1 = some m' ∧ b p.2.2 = some m'
    · simp [hc] at h
      exact ⟨h.2.symm, by simp [winTriple, hb, h.1, hc.1, hc.2]⟩
    · simp [hc] at h

/-- Completeness of one pattern test. -/
lemma patternWinner_of_winTriple {b : Board} {p : Fin 9 × Fin 9 × Fin 9} {m : Mark}
    (h : winTriple b p m) : patternWinner b p = some (m, p) := by
  obtain ⟨h1, h2, h3⟩ := h
  unfold patternWinner
  rw [h1]
  simp [h2, h3]

/-- A winner returned by `checkWinner` really is a complete pattern. -/
lemma checkWinner_sound {b : Board} {m : Mark} {p : Fin 9 × Fin 9 × Fin 9}
    (h : checkWinner b = some (m, p)) : p ∈ winPatterns ∧ winTriple b p m := by
  unfold checkWinner at h
  obtain ⟨q, hq, hpq⟩ := List.exists_of_findSome?_eq_some h
  obtain ⟨rfl, hw⟩ := patternWinner_eq_some hpq
  exact ⟨hq, hw⟩

/-- If some pattern is complete, `checkWinner` does not return `null`. -/
lemma checkWinner_ne_none {b : Board} {p : Fin 9 × Fin 9 × Fin 9} {m : Mark}
    (hp : p ∈ winPatterns) (hw : winTriple b p m) : checkWinner b ≠ none := by
  intro hnone
  unfold checkWinner at hnone
  rw [List.findSome?_eq_none_iff] at hnone
  have := hnone p hp
  rw [patternWinner_of_winTriple hw] at this
  exact Option.noConfusion this

/-- `checkWinner b = none` iff no pattern is complete. -/
lemma checkWinner_eq_none_iff (b : Board) :
    checkWinner b = none ↔ ∀ p ∈ winPatterns, ∀ m : Mark, ¬ winTriple b p m := by
  constructor
  · intro hnone p hp m hw
    exact checkWinner_ne_none hp hw hnone
  · intro hno
    cases h : checkWinner b with
    | none => rfl
    | some w =>
      obtain ⟨hp, hw⟩ := checkWinner_sound (m := w.1) (p := w.2) (by rw [h])
      exact absurd hw (hno w.2 hp w.1)

lemma boardFull_iff (b : Board) :
    boardFull b = true ↔ ∀ i : Fin 9, b i ≠ none := by
  unfold boardFull
  rw [List.all_eq_true]
  constructor
  · intro h i
    have := h i (List.mem_finRange i)
    simp [Option.isSome_iff_ne_none] at this
    exact this
  · intro h i _
    simp [Option.isSome_iff_ne_none]
    exact h i

/-- A board with a complete top row for `X`. -/
def demoBoardTopRow : Board :=
  ![some .X, some .X, some .X, some .O, some .O, none, none, none, none]

/-- A full board with no complete line (a draw). -/
def demoBoardDraw : Board :=
  ![some .X, some .O, some .X,
    some .X, some .O, some .O,
    some .O, some .X, some .X]

/-- **C1**: `checkWinner` recognises a win exactly when one of the 8 fixed
lines (rows, columns, diagonals of `winPatterns`) holds three identical
non-empty marks: any returned winner is such a line with its mark, a winner
is returned if and only if such a line exists, and `null` otherwise. -/
theorem checkWinner_correct (b : Board) :
    (∀ (m : Mark) (p : Fin 9 × Fin 9 × Fin 9),
        checkWinner b = some (m, p) → p ∈ winPatterns ∧ winTriple b p m) ∧
    ((checkWinner b).isSome = true ↔
      ∃ p ∈ winPatterns, ∃ m : Mark, winTriple b p m) ∧
    (checkWinner b = none ↔
      ∀ p ∈ winPatterns, ∀ m : Mark, ¬ winTriple b p m) := by
  refine ⟨fun m p h => checkWinner_sound h, ?_, checkWinner_eq_none_iff b⟩
  constructor
  · intro hs
    rw [Option.isSome_iff_exists] at hs
    obtain ⟨w, hw⟩ := hs
    obtain ⟨hp, ht⟩ := checkWinner_sound (m := w.1) (p := w.2) (by rw [hw])
    exact ⟨w.2, hp, w.1, ht⟩
  · rintro ⟨p, hp, m, hw⟩
    rw [Option.isSome_iff_ne_none]
    exact checkWinner_ne_none hp hw

/-- Witness for C1: `checkWinner` on the board `[X,X,X,O,O,null,null,null,null]`. -/
theorem checkWinner_correct_witness :
    (∀ (m : Mark) (p : Fin 9 × Fin 9 × Fin 9),
        checkWinner demoBoardTopRow = some (m, p) →
          p ∈ winPatterns ∧ winTriple demoBoardTopRow p m) ∧
    ((checkWinner demoBoardTopRow).isSome = true ↔
      ∃ p ∈ winPatterns, ∃ m : Mark, winTriple demoBoardTopRow p m) ∧
    (checkWinner demoBoardTopRow = none ↔
      ∀ p ∈ winPatterns, ∀ m : Mark, ¬ winTriple demoBoardTopRow p m) :=
  checkWinner_correct demoBoardTopRow

/-- **C2**: `checkGameEnd` reports a draw iff no winning line exists and the
board is full; a full board containing a complete line is reported as a win
(the win check has precedence); a board with an empty cell and no complete
line is not terminal. -/
theorem checkGameEnd_correct (b : Board) :
    (checkGameEnd b = some .draw ↔
      (∀ p ∈ winPatterns, ∀ m : Mark, ¬ winTriple b p m) ∧
        ∀ i : Fin 9, b i ≠ none) ∧
    ((∀ i : Fin 9, b i ≠ none) →
      (∃ p ∈ winPatterns, ∃ m : Mark, winTriple b p m) →
        ∃ m : Mark, checkGameEnd b = some (.win m)) ∧
    ((∃ i : Fin 9, b i = none) →
      (∀ p ∈ winPatterns, ∀ m : Mark, ¬ winTriple b p m) →
        checkGameEnd b = none) := by
  refine ⟨⟨?_, ?_⟩, ?_, ?_⟩
  · intro h
    unfold checkGameEnd at h
    cases hw : checkWinner b with
    | some w => rw [hw] at h; simp at h
    | none =>
      rw [hw] at h
      by_cases hf : boardFull b
      · exact ⟨(checkWinner_eq_none_iff b).mp hw, (boardFull_iff b).mp hf⟩
      · simp [hf] at h
  · rintro ⟨hno, hfull⟩
    unfold checkGameEnd
    rw [(checkWinner_eq_none_iff b).mpr hno]
    simp [(boardFull_iff b).mpr fun i => hfull i]
  · rintro _ ⟨p, hp, m, hw⟩
    cases hcw : checkWinner b with
    | none => exact absurd hcw (checkWinner_ne_none hp hw)
    | some w =>
      exact ⟨w.1, by unfold checkGameEnd; rw [hcw]⟩
  · rintro ⟨i, hi⟩ hno
    unfold checkGameEnd
    rw [(checkWinner_eq_none_iff b).mpr hno]
    have hf : boardFull b = false := by
      cases hb : boardFull b with
      | false => rfl
      | true => exact absurd hi ((boardFull_iff b).mp hb i)
    simp [hf]

/-- Witness for C2: `checkGameEnd` on a concrete full drawn board. -/
theorem checkGameEnd_correct_witness :
    checkGameEnd demoBoardDraw = some .draw :=
  (checkGameEnd_correct demoBoardDraw).1.mpr ⟨by decide, by decide⟩

/-- Game mode strings of `GAME_STATE.currentMode`. -/
inductive Mode where
  | human_vs_ai
  | human_vs_human
  | ai_vs_ai
deriving DecidableEq, Repr

/-- The mutable fields of `GAME_STATE` (`game_with_auth.js` lines 19–31)
that the in-round game logic reads or writes.  Authentication, match-id and
difficulty fields are omitted: the round logic never changes them. -/
structure GameState where
  mode : Mode
  currentRound : Nat
  player1Score : Nat
  player2Score : Nat
  board : Board
  currentPlayer : Mark
  gameActive : Bool
  isAITurn : Bool
deriving DecidableEq, Repr

/-- The synchronous state effect of `handleRoundEnd`
(`game_with_auth.js` lines 717–747): deactivate the game and, on a win,
increment the scorer's match score.  Sound playback and the backend
`saveRound` call touch no game state. -/
def handleRoundEnd (s : GameState) (r : RoundResult) : GameState :=
  let s1 := { s with gameActive := false }
  match r with
  | .win .X => { s1 with player1Score := s1.player1Score + 1 }
  | .win .O => { s1 with player2Score := s1.player2Score + 1 }
  | .draw => s1

/-- The synchronous state effect of `makeMove`
(`game_with_auth.js` lines 542–569): place the mark, check for game end;
on a result run `handleRoundEnd`, otherwise switch the player and, in
human-vs-AI mode when the new player is `O`, raise `isAITurn` (the AI's
actual reply arrives later through a separate asynchronous callback). -/
def makeMove (s : GameState) (i : Fin 9) (p : Mark) : GameState :=
  let s1 := { s with board := Function.update s.board i (some p) }
  match checkGameEnd s1.board with
  | some r => handleRoundEnd s1 r
  | none =>
    let s2 := { s1 with currentPlayer := other p }
    if s2.mode = .human_vs_ai ∧ s2.currentPlayer = .O then
      { s2 with isAITurn := true }
    else
      s2

/-- `handleCellClick` (`game_with_auth.js` lines 532–540): reject the click
when the game is inactive, the cell is occupied, or it is the AI's turn;
otherwise make the move for the current player. -/
def handleCellClick (s : GameState) (i : Fin 9) : GameState :=
  if s.gameActive = false then s
  else if s.board i ≠ none then s
  else if s.isAITurn = true then s
  else makeMove s i s.currentPlayer

/-- **C8**: an illegal cell click is rejected with no state change: if the
game is not active, or the clicked cell is occupied, or it is the AI's
turn, `handleCellClick` leaves the entire game state (board, current
player, scores, round, flags) unchanged. -/
theorem handleCellClick_frame (s : GameState) (i : Fin 9)
    (h : s.gameActive = false ∨ s.board i ≠ none ∨ s.isAITurn = true) :
    handleCellClick s i = s := by
  unfold handleCellClick
  rcases h with h | h | h
  · simp [h]
  · by_cases hg : s.gameActive = false
    · simp [hg]
    · simp [hg, h]
  · by_cases hg : s.gameActive = false
    · simp [hg]
    · by_cases hb : s.board i ≠ none
      · simp [hg, hb]
      · simp [hg, hb, h]

/-- A concrete mid-round state used by the C8 witness: the game is inactive. -/
def demoInactiveState : GameState :=
  { mode := .human_vs_ai
    currentRound := 1
    player1Score := 0
    player2Score := 0
    board := demoBoardDraw
    currentPlayer := .X
    gameActive := false
    isAITurn := false }

/-- Witness for C8: clicking cell 5 of an inactive game changes nothing. -/
theorem handleCellClick_frame_witness :
    handleCellClick demoInactiveState 5 = demoInactiveState :=
  handleCellClick_frame demoInactiveState 5 (Or.inl rfl)

/-- Phase of the best-of-3 match flow: a round in progress, the
round-result modal offering the next round, or the match-result modal. -/
inductive MatchPhase where
  | playing
  | betweenRounds
  | finished
deriving DecidableEq, Repr

/-- The match-level fields of `GAME_STATE` driven by the round flow. -/
structure MatchState where
  currentRound : Nat
  player1Score : Nat
  player2Score : Nat
  phase : MatchPhase
deriving DecidableEq, Repr

/-- `startNewMatch` (`game_with_auth.js` lines 436–444): round 1, both
scores 0, then `startNewRound` activates play. -/
def initialMatch : MatchState :=
  { currentRound := 1, player1Score := 0, player2Score := 0, phase := .playing }

/-- Effect of a round ending on the match state: the score update of
`handleRoundEnd` (`game_with_auth.js` lines 721–727) followed by the
decision of `showRoundResultModal` (lines 795–808): the match ends when a
player reaches score 2 or when round 3 has been played, otherwise the
next-round modal is shown. -/
def endRound (s : MatchState) (r : RoundResult) : MatchState :=
  let s1 :=
    match r with
    | .win .X => { s with player1Score := s.player1Score + 1 }
    | .win .O => { s with player2Score := s.player2Score + 1 }
    | .draw => s
  if s1.player1Score = 2 ∨ s1.player2Score = 2 then
    { s1 with phase := .finished }
  else if s1.currentRound = 3 then
    { s1 with phase := .finished }
  else
    { s1 with phase := .betweenRounds }

/-- `startNextRound` (`game_with_auth.js` lines 810–815): increment the
round counter and start the next round. -/
def startNextRound (s : MatchState) : MatchState :=
  { s with currentRound := s.currentRound + 1, phase := .playing }

/-- Match states reachable through round play from a fresh match. -/
inductive ReachableMatch : MatchState → Prop where
  | init : ReachableMatch initialMatch
  | endRound {s : MatchState} (r : RoundResult) :
      ReachableMatch s → s.phase = .playing → ReachableMatch (endRound s r)
  | next {s : MatchState} :
      ReachableMatch s → s.phase = .betweenRounds →
        ReachableMatch (startNextRound s)

/-- The row constraints of the `matches` table
(`schemas_with_auth.sql` lines 85 and 91): `valid_round` requires
`current_round BETWEEN 1 AND 3` and `max_best_of_3` requires both scores
at most 2. -/
def sqlMatchRowOk (round p1 p2 : Nat) : Prop :=
  1 ≤ round ∧ round ≤ 3 ∧ p1 ≤ 2 ∧ p2 ≤ 2

/-- Strengthened induction invariant for the match flow. -/
def matchInv (s : MatchState) : Prop :=
  sqlMatchRowOk s.currentRound s.player1Score s.player2Score ∧
    (s.phase = .playing →
      s.player1Score ≤ 1 ∧ s.player2Score ≤ 1 ∧ s.currentRound ≤ 3) ∧
    (s.phase = .betweenRounds →
      s.player1Score ≤ 1 ∧ s.player2Score ≤ 1 ∧ s.currentRound ≤ 2)

lemma matchInv_endRound {s : MatchState} (r : RoundResult)
    (hs : matchInv s) (hp : s.phase = .playing) : matchInv (endRound s r) := by
  obtain ⟨round, p1, p2, phase⟩ := s
  obtain ⟨⟨h1, h2, h3, h4⟩, hplay, _⟩ := hs
  obtain ⟨hp1, hp2, hr3⟩ := hplay hp
  have g1 : 1 ≤ round := h1
  have g2 : round ≤ 3 := h2
  have g3 : p1 ≤ 1 := hp1
  have g4 : p2 ≤ 1 := hp2
  unfold matchInv sqlMatchRowOk endRound
  rcases r with ⟨_ | _⟩ | _ <;>
    (dsimp only
     split_ifs <;>
       (dsimp only
        refine ⟨⟨?_, ?_, ?_, ?_⟩, fun hph => ?_, fun hph => ?_⟩ <;>
          first
            | omega
            | exact absurd hph (by simp)
            | exact ⟨by omega, by omega, by omega⟩))

lemma matchInv_next {s : MatchState} (hs : matchInv s)
    (hp : s.phase = .betweenRounds) : matchInv (startNextRound s) := by
  obtain ⟨round, p1, p2, phase⟩ := s
  obtain ⟨⟨h1, h2, h3, h4⟩, _, hbet⟩ := hs
  obtain ⟨hp1, hp2, hr2⟩ := hbet hp
  have g1 : 1 ≤ round := h1
  have g3 : p1 ≤ 1 := hp1
  have g4 : p2 ≤ 1 := hp2
  have g5 : round ≤ 2 := hr2
  unfold matchInv sqlMatchRowOk startNextRound
  dsimp only
  refine ⟨⟨?_, ?_, ?_, ?_⟩, fun hph => ?_, fun hph => ?_⟩ <;>
    first
      | omega
      | exact absurd hph (by simp)
      | exact ⟨by omega, by omega, by omega⟩

lemma reachable_matchInv {s : MatchState} (h : ReachableMatch s) : matchInv s := by
  induction h with
  | init =>
    exact ⟨⟨by decide, by decide, by decide, by decide⟩,
      fun _ => ⟨by decide, by decide, by decide⟩, by intro h; simp [initialMatch] at h⟩
  | endRound r _ hp ih => exact matchInv_endRound r ih hp
  | next _ hp ih => exact matchInv_next ih hp

/-- **C9**: in every match state reachable through round play, each score is
at most 2 and the round number is between 1 and 3 (the `matches` table
constraints `max_best_of_3` and `valid_round`); once a player has reached
score 2 the match is in the finished phase, so no further round starts; and
ending a round while round 3 is in progress always finishes the match. -/
theorem bestOfThree_invariant (s : MatchState) (h : ReachableMatch s) :
    sqlMatchRowOk s.currentRound s.player1Score s.player2Score ∧
    ((s.player1Score = 2 ∨ s.player2Score = 2) → s.phase = .finished) ∧
    (∀ r : RoundResult, s.phase = .playing → s.currentRound = 3 →
      (endRound s r).phase = .finished) := by
  obtain ⟨hrow, hplay, hbet⟩ := reachable_matchInv h
  refine ⟨hrow, ?_, ?_⟩
  · intro h2
    cases hph : s.phase with
    | playing =>
      obtain ⟨hp1, hp2, _⟩ := hplay hph
      omega
    | betweenRounds =>
      obtain ⟨hp1, hp2, _⟩ := hbet hph
      omega
    | finished => rfl
  · intro r _ hr3
    unfold endRound
    rcases r with ⟨_ | _⟩ | _ <;>
      (dsimp only
       split_ifs with hA hB <;> first | rfl | exact absurd hr3 hB)

/-- Witness for C9: the invariant at the freshly started match. -/
theorem bestOfThree_invariant_witness :
    sqlMatchRowOk initialMatch.currentRound initialMatch.player1Score
        initialMatch.player2Score ∧
    ((initialMatch.player1Score = 2 ∨ initialMatch.player2Score = 2) →
      initialMatch.phase = .finished) ∧
    (∀ r : RoundResult, initialMatch.phase = .playing →
      initialMatch.currentRound = 3 → (endRound initialMatch r).phase = .finished) :=
  bestOfThree_invariant initialMatch ReachableMatch.init

/-- Difficulty tiers of the engine (spec §3). -/
inductive Difficulty where
  | easy
  | medium
  | hard
deriving DecidableEq, Repr

/-- Modelled from the spec: the engine source behind the `/ai/move` endpoint
called by `makeAIMove` is not in the repository.  Terminal detection (§4.1)
shares the 8 fixed lines of the board logic: the winning mark, if any. -/
def boardWinner (b : Board) : Option Mark :=
  (checkWinner b).map Prod.fst

/-- The legal (empty) cells of a board, in ascending index order. -/
def emptyCells (b : Board) : List (Fin 9) :=
  (List.finRange 9).filter fun i => (b i).isNone

/-- Modelled from the spec: the engine source is not in the repository.
Scoring convention of §4.1/§3.5: from the mover's perspective a terminal
state scores `10 - depth` for a win by the mover, `-10 + depth` for a win
by the opponent, `0` for a draw (`depth` = plies from the root), and `none`
on a non-terminal board. -/
def terminalScore (b : Board) (me : Mark) (d : Nat) : Option Int :=
  match boardWinner b with
  | some w => if w = me then some (10 - (d : Int)) else some (-10 + (d : Int))
  | none => if emptyCells b = [] then some 0 else none

/-- Modelled from the spec: the engine source is not in the repository.
The Hard-tier adversarial search value (§4.1): terminal check at every node,
maximise on the engine's own turns, minimise on the opponent's.  `fuel`
bounds the recursion (the caller passes the number of empty cells, which
strictly decreases along every branch, so the `fuel = 0` fallback is never
reached from a root call).  Alpha-beta pruning is a value-preserving
optimisation (§5: it must not change the chosen move) and is not modelled. -/
def minimaxValue : Nat → Board → Mark → Mark → Nat → Int
  | 0, b, me, _, d =>
    match terminalScore b me d with
    | some s => s
    | none => 0
  | fuel' + 1, b, me, turn, d =>
    match terminalScore b me d with
    | some s => s
    | none =>
      let vals := (emptyCells b).map fun i =>
        minimaxValue fuel' (Function.update b i (some turn)) me (other turn) (d + 1)
      if turn = me then vals.foldl max (-1000) else vals.foldl min 1000

/-- Modelled from the spec: nodes visited by the search (§4.1,
`nodes_evaluated`): one count per node visited, terminal or internal. -/
def countNodes : Nat → Board → Mark → Mark → Nat → Nat
  | 0, _, _, _, _ => 1
  | fuel' + 1, b, me, turn, d =>
    match terminalScore b me d with
    | some _ => 1
    | none =>
      1 + ((emptyCells b).map fun i =>
        countNodes fuel' (Function.update b i (some turn)) me (other turn) (d + 1)).sum

/-- Modelled from the spec: the deterministic tie-break of §4.1 — keep the
highest-scoring candidate, and on equal scores the earlier (lower-index)
one.  The accumulator holds the best candidate seen so far. -/
def pickBest : List (Fin 9 × Int) → Option (Fin 9 × Int) → Option (Fin 9 × Int)
  | [], acc => acc
  | x :: xs, none => pickBest xs (some x)
  | x :: xs, some a => pickBest xs (some (if a.2 < x.2 then x else a))

/-- The root value of playing cell `i`: one ply deep, opponent to move. -/
def rootValue (b : Board) (me : Mark) (i : Fin 9) : Int :=
  minimaxValue (emptyCells b).length (Function.update b i (some me)) me (other me) 1

/-- Each legal move paired with its search value, in ascending index order. -/
def scoredMoves (b : Board) (me : Mark) : List (Fin 9 × Int) :=
  (emptyCells b).map fun i => (i, rootValue b me i)

/-- Modelled from the spec: the Hard-tier move choice — the legal move of
maximum search value, lowest board index on ties (§4.1). -/
def bestMove (b : Board) (me : Mark) : Option (Fin 9 × Int) :=
  pickBest (scoredMoves b me) none

/-- The engine's result value (spec §3, §6). -/
structure MoveDecision where
  move : Fin 9
  score : Int
  nodes_evaluated : Nat
  branches_pruned : Nat
  explanation : String
deriving DecidableEq, Repr

/-- The engine's failure taxonomy (spec §7).  With a typed 9-cell board and
a typed mark, `InvalidBoard` and `InvalidPlayer` are never produced. -/
inductive EngineError where
  | NoLegalMoves
  | InvalidBoard
  | InvalidPlayer
deriving DecidableEq, Repr

/-- Modelled from the spec: `computeMove` (§4.1) — the engine source behind
`/ai/move` is not in the repository.  Fails with `NoLegalMoves` when the
board has no empty cell, otherwise returns the Hard-tier decision.  The
Easy/Medium weakening policies are left open by the spec (§4.1, §9) and no
claim depends on them, so every tier is instantiated with the same full
deterministic search; `branches_pruned` is 0 since pruning is not modelled. -/
def computeMove (b : Board) (me : Mark) (difficulty : Difficulty) :
    Except EngineError MoveDecision :=
  match difficulty, bestMove b me with
  | _, none => .error .NoLegalMoves
  | _, some (i, s) =>
    .ok { move := i
          score := s
          nodes_evaluated := countNodes (emptyCells b).length b me me 0
          branches_pruned := 0
          explanation := "Optimal move selected by exhaustive minimax search." }

/-- The cell chosen by an engine call, if the call succeeded. -/
def chosenMove : Except EngineError MoveDecision → Option (Fin 9)
  | .ok md => some md.move
  | .error _ => none

lemma other_ne (m : Mark) : other m ≠ m := by
  cases m <;> simp [other]

lemma mem_emptyCells {b : Board} {i : Fin 9} : i ∈ emptyCells b ↔ b i = none := by
  simp [emptyCells, List.mem_filter, List.mem_finRange, Option.isNone_iff_eq_none]

lemma emptyCells_eq_nil_iff (b : Board) :
    emptyCells b = [] ↔ ∀ i : Fin 9, b i ≠ none := by
  constructor
  · intro h i hi
    have hm : i ∈ emptyCells b := mem_emptyCells.mpr hi
    simp [h] at hm
  · intro h
    cases he : emptyCells b with
    | nil => rfl
    | cons j js =>
      have hm : j ∈ emptyCells b := by rw [he]; exact List.mem_cons_self j js
      exact absurd (mem_emptyCells.mp hm) (h j)

lemma emptyCells_length_le (b : Board) : (emptyCells b).length ≤ 9 := by
  have h := List.length_filter_le (fun i => (b i).isNone) (List.finRange 9)
  simpa using h

lemma terminalScore_le {b : Board} {me : Mark} {d : Nat} {s : Int}
    (hd : d ≤ 10) (h : terminalScore b me d = some s) : s ≤ 10 - (d : Int) := by
  unfold terminalScore at h
  cases hw : boardWinner b with
  | some w =>
    rw [hw] at h
    by_cases hwm : w = me
    · simp [hwm] at h
      omega
    · simp [hwm] at h
      omega
  | none =>
    rw [hw] at h
    by_cases he : emptyCells b = []
    · simp [he] at h
      omega
    · simp [he] at h

lemma terminalScore_le_zero {b : Board} {me : Mark} {d : Nat} {s : Int}
    (hw : boardWinner b ≠ some me) (hd : d ≤ 10)
    (h : terminalScore b me d = some s) : s ≤ 0 := by
  unfold terminalScore at h
  cases hbw : boardWinner b with
  | some w =>
    rw [hbw] at h
    have hwm : w ≠ me := fun he => hw (he ▸ hbw)
    simp [hwm] at h
    omega
  | none =>
    rw [hbw] at h
    by_cases he : emptyCells b = []
    · simp [he] at h
      omega
    · simp [he] at h

lemma terminalScore_none_empty {b : Board} {me : Mark} {d : Nat}
    (h : terminalScore b me d = none) : emptyCells b ≠ [] := by
  unfold terminalScore at h
  cases hw : boardWinner b with
  | some w =>
    rw [hw] at h
    by_cases hwm : w = me <;> simp [hwm] at h
  | none =>
    rw [hw] at h
    intro he
    simp [he] at h

lemma foldl_max_le {c : Int} :
    ∀ (xs : List Int) (init : Int), init ≤ c → (∀ x ∈ xs, x ≤ c) →
      xs.foldl max init ≤ c
  | [], _, hi, _ => hi
  | x :: xs, init, hi, hxs => by
    simp only [List.foldl_cons]
    exact foldl_max_le xs (max init x)
      (max_le hi (hxs x (List.mem_cons_self x xs)))
      (fun y hy => hxs y (List.mem_cons_of_mem x hy))

lemma foldl_min_le_init : ∀ (xs : List Int) (init : Int), xs.foldl min init ≤ init
  | [], init => le_refl init
  | x :: xs, init => by
    simp only [List.foldl_cons]
    exact le_trans (foldl_min_le_init xs (min init x)) (min_le_left init x)

lemma foldl_min_le_of_mem :
    ∀ (xs : List Int) (init x : Int), x ∈ xs → xs.foldl min init ≤ x
  | [], _, x, hx => absurd hx (List.not_mem_nil x)
  | y :: ys, init, x, hx => by
    simp only [List.foldl_cons]
    rcases List.mem_cons.mp hx with rfl | hx2
    · exact le_trans (foldl_min_le_init ys (min init x)) (min_le_right init x)
    · exact foldl_min_le_of_mem ys (min init y) x hx2

/-- Search values never exceed the value of the fastest possible win. -/
lemma minimaxValue_le (fuel : Nat) :
    ∀ (b : Board) (me turn : Mark) (d : Nat), d + fuel ≤ 10 →
      minimaxValue fuel b me turn d ≤ 10 - (d : Int) := by
  induction fuel with
  | zero =>
    intro b me turn d hd
    unfold minimaxValue
    cases ht : terminalScore b me d with
    | some s => exact terminalScore_le (by omega) ht
    | none =>
      dsimp only
      omega
  | succ fuel' ih =>
    intro b me turn d hd
    unfold minimaxValue
    cases ht : terminalScore b me d with
    | some s => exact terminalScore_le (by omega) ht
    | none =>
      dsimp only
      by_cases htm : turn = me
      · rw [if_pos htm]
        refine foldl_max_le _ _ (by omega) ?_
        intro x hx
        obtain ⟨i, _, rfl⟩ := List.mem_map.mp hx
        have hch := ih (Function.update b i (some turn)) me (other turn) (d + 1)
          (by omega)
        omega
      · rw [if_neg htm]
        obtain ⟨j, hj⟩ := List.exists_mem_of_ne_nil _ (terminalScore_none_empty ht)
        have hmem :
            minimaxValue fuel' (Function.update b j (some turn)) me (other turn)
                (d + 1) ∈
              (emptyCells b).map fun i =>
                minimaxValue fuel' (Function.update b i (some turn)) me
                  (other turn) (d + 1) :=
          List.mem_map_of_mem _ hj
        have h1 := foldl_min_le_of_mem _ 1000 _ hmem
        have h2 := ih (Function.update b j (some turn)) me (other turn) (d + 1)
          (by omega)
        omega

/-- On a board already won by the mover, the search returns the win score. -/
lemma minimaxValue_of_winner {b : Board} {me : Mark}
    (h : boardWinner b = some me) (fuel : Nat) (turn : Mark) (d : Nat) :
    minimaxValue fuel b me turn d = 10 - (d : Int) := by
  have ht : terminalScore b me d = some (10 - (d : Int)) := by
    unfold terminalScore
    rw [h]
    simp
  cases fuel <;> (unfold minimaxValue; rw [ht])

/-- A root move that does not win immediately is worth at most 8: the board
it reaches is not a win for the mover, so any win is at least two plies
deeper than an immediate one. -/
lemma minimaxValue_le_eight {b : Board} {me : Mark} {fuel : Nat}
    (hw : boardWinner b ≠ some me) (hf : fuel ≤ 9) :
    minimaxValue fuel b me (other me) 1 ≤ 8 := by
  cases fuel with
  | zero =>
    unfold minimaxValue
    cases ht : terminalScore b me 1 with
    | some s =>
      have hs := terminalScore_le_zero hw (by omega) ht
      exact le_trans hs (by omega)
    | none =>
      dsimp only
      omega
  | succ fuel' =>
    unfold minimaxValue
    cases ht : terminalScore b me 1 with
    | some s =>
      have hs := terminalScore_le_zero hw (by omega) ht
      exact le_trans hs (by omega)
    | none =>
      dsimp only
      rw [if_neg (other_ne me)]
      obtain ⟨j, hj⟩ := List.exists_mem_of_ne_nil _ (terminalScore_none_empty ht)
      have hmem :
          minimaxValue fuel' (Function.update b j (some (other me))) me
              (other (other me)) (1 + 1) ∈
            (emptyCells b).map fun i =>
              minimaxValue fuel' (Function.update b i (some (other me))) me
                (other (other me)) (1 + 1) :=
        List.mem_map_of_mem _ hj
      have h1 := foldl_min_le_of_mem _ 1000 _ hmem
      have h2 := minimaxValue_le fuel' (Function.update b j (some (other me)))
        me (other (other me)) (1 + 1) (by omega)
      omega

/-- `pickBest` starting from candidate `a` returns a candidate drawn from
`a` or the list, scoring at least `a` and at least every list entry. -/
lemma pickBest_some_spec :
    ∀ (xs : List (Fin 9 × Int)) (a : Fin 9 × Int),
      ∃ r, pickBest xs (some a) = some r ∧ (r = a ∨ r ∈ xs) ∧
        a.2 ≤ r.2 ∧ ∀ x ∈ xs, x.2 ≤ r.2
  | [], a => ⟨a, rfl, Or.inl rfl, le_refl _, by simp⟩
  | x :: xs, a => by
    have heq : pickBest (x :: xs) (some a)
        = pickBest xs (some (if a.2 < x.2 then x else a)) := rfl
    by_cases hc : a.2 < x.2
    · rw [if_pos hc] at heq
      obtain ⟨r, h1, h2, h3, h4⟩ := pickBest_some_spec xs x
      refine ⟨r, heq.trans h1, ?_, by omega, ?_⟩
      · rcases h2 with rfl | h2
        · exact Or.inr (List.mem_cons_self _ _)
        · exact Or.inr (List.mem_cons_of_mem _ h2)
      · intro y hy
        rcases List.mem_cons.mp hy with rfl | hy2
        · exact h3
        · exact h4 y hy2
    · rw [if_neg hc] at heq
      obtain ⟨r, h1, h2, h3, h4⟩ := pickBest_some_spec xs a
      refine ⟨r, heq.trans h1, ?_, h3, ?_⟩
      · rcases h2 with rfl | h2
        · exact Or.inl rfl
        · exact Or.inr (List.mem_cons_of_mem _ h2)
      · intro y hy
        rcases List.mem_cons.mp hy with rfl | hy2
        · omega
        · exact h4 y hy2

/-- On a board with a legal move, `bestMove` returns a scored legal move of
maximal search value. -/
lemma bestMove_spec {b : Board} (me : Mark) (hne : emptyCells b ≠ []) :
    ∃ r, bestMove b me = some r ∧ r ∈ scoredMoves b me ∧
      ∀ x ∈ scoredMoves b me, x.2 ≤ r.2 := by
  unfold bestMove scoredMoves
  cases he : emptyCells b with
  | nil => exact absurd he hne
  | cons j js =>
    simp only [List.map_cons]
    obtain ⟨r, h1, h2, h3, h4⟩ :=
      pickBest_some_spec (js.map fun i => (i, rootValue b me i))
        (j, rootValue b me j)
    refine ⟨r, h1, ?_, ?_⟩
    · rcases h2 with rfl | h2
      · exact List.mem_cons_self _ _
      · exact List.mem_cons_of_mem _ h2
    · intro x hx
      rcases List.mem_cons.mp hx with rfl | hx2
      · exact h3
      · exact h4 x hx2

lemma bestMove_eq_none_iff (b : Board) (me : Mark) :
    bestMove b me = none ↔ emptyCells b = [] := by
  constructor
  · intro h
    by_contra hne
    obtain ⟨r, h1, _, _⟩ := bestMove_spec me hne
    rw [h1] at h
    exact Option.noConfusion h
  · intro h
    unfold bestMove scoredMoves
    rw [h]
    rfl

/-- The board of spec §8, concrete scenario 1: `[X,X,null,O,O,null,null,null,null]`. -/
def demoScenario1 : Board :=
  ![some .X, some .X, none, some .O, some .O, none, none, none, none]

/-- **C3**: on every non-terminal board where the engine's mark can complete
a line in one move, the Hard-difficulty move computation selects a cell that
completes such a line; in particular on the board
`[X,X,null,O,O,null,null,null,null]` with player `X` it chooses cell 2. -/
theorem hard_selects_win :
    (∀ (b : Board) (me : Mark),
      checkGameEnd b = none →
      (∃ i : Fin 9, b i = none ∧
        boardWinner (Function.update b i (some me)) = some me) →
      ∃ md, computeMove b me .hard = .ok md ∧
        boardWinner (Function.update b md.move (some me)) = some me) ∧
    chosenMove (computeMove demoScenario1 .X .hard) = some 2 := by
  constructor
  · rintro b me _ ⟨i0, hi0, hwin⟩
    have hne : emptyCells b ≠ [] := List.ne_nil_of_mem (mem_emptyCells.mpr hi0)
    obtain ⟨r, hbm, hmem, hmax⟩ := bestMove_spec me hne
    obtain ⟨rj, rv⟩ := r
    have hscored : (i0, rootValue b me i0) ∈ scoredMoves b me :=
      List.mem_map_of_mem _ (mem_emptyCells.mpr hi0)
    have hval9 : rootValue b me i0 = 9 := by
      unfold rootValue
      rw [minimaxValue_of_winner hwin]
      norm_num
    have h0 : rootValue b me i0 ≤ rv := hmax _ hscored
    obtain ⟨j, hjmem, hjeq⟩ := List.mem_map.mp hmem
    have hj1 : j = rj := congrArg Prod.fst hjeq
    have hj2 : rootValue b me j = rv := congrArg Prod.snd hjeq
    have hwinning : boardWinner (Function.update b rj (some me)) = some me := by
      by_contra hnw
      have h8 : rootValue b me j ≤ 8 := by
        unfold rootValue
        apply minimaxValue_le_eight
        · rw [hj1]; exact hnw
        · exact emptyCells_length_le b
      omega
    refine ⟨{ move := rj
              score := rv
              nodes_evaluated := countNodes (emptyCells b).length b me me 0
              branches_pruned := 0
              explanation :=
                "Optimal move selected by exhaustive minimax search." },
      ?_, hwinning⟩
    unfold computeMove
    rw [hbm]
  · rfl

/-- Witness for C3: the general statement applied to the scenario-1 board. -/
theorem hard_selects_win_witness :
    ∃ md, computeMove demoScenario1 .X .hard = .ok md ∧
      boardWinner (Function.update demoScenario1 md.move (some .X)) = some .X :=
  hard_selects_win.1 demoScenario1 .X (by decide) ⟨2, by decide, by decide⟩

/-- **C4**: the move computation fails with `NoLegalMoves` exactly when the
board has no empty cell, and succeeds with a move whenever some cell is
empty — at every difficulty tier. -/
theorem noLegalMoves_iff (b : Board) (me : Mark) (difficulty : Difficulty) :
    (computeMove b me difficulty = .error .NoLegalMoves ↔
      ∀ i : Fin 9, b i ≠ none) ∧
    ((∃ i : Fin 9, b i = none) → ∃ md, computeMove b me difficulty = .ok md) := by
  refine ⟨⟨?_, ?_⟩, ?_⟩
  · intro h
    rw [← emptyCells_eq_nil_iff]
    by_contra hne
    obtain ⟨r, hbm, _, _⟩ := bestMove_spec me hne
    obtain ⟨rj, rv⟩ := r
    unfold computeMove at h
    rw [hbm] at h
    cases difficulty <;> simp at h
  · intro h
    have hnil : emptyCells b = [] := (emptyCells_eq_nil_iff b).mpr h
    have hbm : bestMove b me = none := (bestMove_eq_none_iff b me).mpr hnil
    unfold computeMove
    rw [hbm]
  · rintro ⟨i, hi⟩
    have hne : emptyCells b ≠ [] := List.ne_nil_of_mem (mem_emptyCells.mpr hi)
    obtain ⟨r, hbm, _, _⟩ := bestMove_spec me hne
    obtain ⟨rj, rv⟩ := r
    refine ⟨{ move := rj
              score := rv
              nodes_evaluated := countNodes (emptyCells b).length b me me 0
              branches_pruned := 0
              explanation :=
                "Optimal move selected by exhaustive minimax search." }, ?_⟩
    unfold computeMove
    rw [hbm]

/-- Witness for C4: the full drawn board fails with `NoLegalMoves`. -/
theorem noLegalMoves_iff_witness :
    computeMove demoBoardDraw .X .hard = .error .NoLegalMoves :=
  (noLegalMoves_iff demoBoardDraw .X .hard).1.mpr (by decide)

/-- **C5**: the Hard-difficulty move computation is deterministic — two
calls on the same board and player return the same move, score,
nodes_evaluated and branches_pruned. -/
theorem hard_deterministic (b : Board) (me : Mark) (r1 r2 : MoveDecision)
    (h1 : computeMove b me .hard = .ok r1)
    (h2 : computeMove b me .hard = .ok r2) :
    r1.move = r2.move ∧ r1.score = r2.score ∧
      r1.nodes_evaluated = r2.nodes_evaluated ∧
      r1.branches_pruned = r2.branches_pruned := by
  rw [h1] at h2
  injection h2 with h
  subst h
  exact ⟨rfl, rfl, rfl, rfl⟩

/-- A board with only the centre cell empty. -/
def demoCenterOnly : Board :=
  ![some .X, some .O, some .X,
    some .X, none, some .O,
    some .O, some .X, some .O]

/-- The engine's decision on `demoCenterOnly` for `X` at Hard. -/
def demoDecision : MoveDecision :=
  { move := 4
    score := 0
    nodes_evaluated := 2
    branches_pruned := 0
    explanation := "Optimal move selected by exhaustive minimax search." }

/-- Witness for C5: both calls on the centre-only board agree. -/
theorem hard_deterministic_witness :
    demoDecision.move = demoDecision.move ∧
      demoDecision.score = demoDecision.score ∧
      demoDecision.nodes_evaluated = demoDecision.nodes_evaluated ∧
      demoDecision.branches_pruned = demoDecision.branches_pruned :=
  hard_deterministic demoCenterOnly .X demoDecision demoDecision rfl rfl

/-- **C6**: a terminal position scores, from the mover's perspective, `+10`
for a win by the mover, `-10` for a win by the opponent and `0` for a draw
at the root, and the depth adjustment makes a win reached in fewer plies
score strictly higher and a loss reached in more plies score strictly
higher (less negative). -/
theorem terminalScore_spec (b : Board) (me : Mark) (d1 d2 : Nat)
    (h12 : d1 < d2) :
    (boardWinner b = some me →
      terminalScore b me 0 = some 10 ∧
      ∀ s1 s2 : Int, terminalScore b me d1 = some s1 →
        terminalScore b me d2 = some s2 → s2 < s1) ∧
    (boardWinner b = some (other me) →
      terminalScore b me 0 = some (-10) ∧
      ∀ s1 s2 : Int, terminalScore b me d1 = some s1 →
        terminalScore b me d2 = some s2 → s1 < s2) ∧
    ((∀ p ∈ winPatterns, ∀ m : Mark, ¬ winTriple b p m) →
      (∀ i : Fin 9, b i ≠ none) → terminalScore b me d1 = some 0) := by
  refine ⟨?_, ?_, ?_⟩
  · intro hw
    have hts : ∀ d : Nat, terminalScore b me d = some (10 - (d : Int)) := by
      intro d
      unfold terminalScore
      rw [hw]
      simp
    refine ⟨by simpa using hts 0, ?_⟩
    intro s1 s2 hs1 hs2
    rw [hts d1] at hs1
    rw [hts d2] at hs2
    injection hs1 with e1
    injection hs2 with e2
    omega
  · intro hw
    have hts : ∀ d : Nat, terminalScore b me d = some (-10 + (d : Int)) := by
      intro d
      unfold terminalScore
      rw [hw]
      dsimp only
      rw [if_neg (other_ne me)]
    refine ⟨by simpa using hts 0, ?_⟩
    intro s1 s2 hs1 hs2
    rw [hts d1] at hs1
    rw [hts d2] at hs2
    injection hs1 with e1
    injection hs2 with e2
    omega
  · intro hno hfull
    have hbw : boardWinner b = none := by
      unfold boardWinner
      rw [(checkWinner_eq_none_iff b).mpr hno]
      rfl
    unfold terminalScore
    rw [hbw]
    dsimp only
    rw [if_pos ((emptyCells_eq_nil_iff b).mpr hfull)]

/-- Witness for C6: the scoring on the won board `[X,X,X,O,O,...]` at
depths 1 and 2. -/
theorem terminalScore_spec_witness :
    terminalScore demoBoardTopRow .X 0 = some 10 ∧
    ∀ s1 s2 : Int, terminalScore demoBoardTopRow .X 1 = some s1 →
      terminalScore demoBoardTopRow .X 2 = some s2 → s2 < s1 :=
  (terminalScore_spec demoBoardTopRow .X 1 2 (by decide)).1 (by decide)

/-- Postgres `ROUND(x, 1)` on a non-negative `DECIMAL`: round to one
decimal place, halves away from zero. -/
def pgRound1 (q : ℚ) : ℚ :=
  ((⌊q * 10 + 1 / 2⌋ : Int) : ℚ) / 10

/-- `calculate_win_rate` (`schemas_with_auth.sql` lines 170–187): the
user's `total_matches` and `matches_won` columns are read into `total` and
`won`; the function returns 0 when `total = 0` and otherwise
`ROUND((won / total) * 100, 1)`. -/
def calculate_win_rate (total won : Int) : ℚ :=
  if total = 0 then 0 else pgRound1 ((won : ℚ) / (total : ℚ) * 100)

/-- The `win_rate_percentage` CASE expression of the `user_statistics` view
(`schemas_with_auth.sql` lines 221–224): 0 when `total_matches = 0`, else
`ROUND((matches_won / total_matches) * 100, 1)`. -/
def win_rate_percentage (total won : Int) : ℚ :=
  if total = 0 then 0 else pgRound1 ((won : ℚ) / (total : ℚ) * 100)

/-- **C10**: win-rate computation is division-safe: `calculate_win_rate`
returns 0 whenever `total_matches` is 0, divides only under the
`total ≠ 0` guard (returning `ROUND(won/total*100, 1)`), and the
`user_statistics` view's CASE expression computes the same value. -/
theorem calculate_win_rate_safe (total won : Int) :
    (total = 0 → calculate_win_rate total won = 0) ∧
    (total ≠ 0 →
      calculate_win_rate total won =
        pgRound1 ((won : ℚ) / (total : ℚ) * 100)) ∧
    calculate_win_rate total won = win_rate_percentage total won := by
  refine ⟨fun h => ?_, fun h => ?_, rfl⟩
  · simp [calculate_win_rate, h]
  · simp [calculate_win_rate, h]

/-- Witness for C10: a user with no matches has win rate 0, and one with 3
wins out of 4 matches has win rate 75. -/
theorem calculate_win_rate_safe_witness :
    calculate_win_rate 0 5 = 0 ∧ calculate_win_rate 4 3 = pgRound1 (3 / 4 * 100) :=
  ⟨(calculate_win_rate_safe 0 5).1 rfl,
    by
      have h := (calculate_win_rate_safe 4 3).2.1 (by decide)
      rw [h]
      norm_num⟩

end TicTacToe
